import Mathlib

/-!
# Fault injector and instruction levels of `constraint/blueprint.go`

A shallow embedding of the `faultInjector` type of `constraint/blueprint.go`
(`newFaultInjector`, `Reset`, `MaxFaults`, `NumFaults`, `NumCalls`, `Delta`
and the package variable `MainFaultInjector`) together with theorems about it,
followed by a model of the levelling done by `UpdateInstructionTree`.

Modelling choices.

* Go `int` is the 64-bit two's complement integer: a field of that type is an
  `Int`, and `++` is addition followed by `wrapInt`.
* Go `float64` is `F64`: not-a-number, the two infinities, and the finite
  values as dyadic fractions `m / 2^e` (every finite double is one). The source
  only compares floats with `<`, and `F64.lt` is that comparison (false as soon
  as one side is not a number).
* `math/rand` is not part of the repository. A `Source` packages what the
  injector uses of it: the generator state, `rand.New(rand.NewSource(seed))`
  as a function of the seed, and `Float64()` as a function from a state to the
  drawn value and the next state. Every theorem holds for every `Source`.
* A method with a pointer receiver becomes a function that takes the injector
  and returns the updated injector next to its result.
-/

namespace constraint

/-! ## Machine integers and floats -/

/-- Two's complement wrap-around of a mathematical integer into the range of a
64-bit Go `int`, `[-2^63, 2^63)`. -/
def wrapInt (x : Int) : Int := (x + 2 ^ 63) % 2 ^ 64 - 2 ^ 63

/-- Membership in the range of a 64-bit Go `int`. -/
def isInt (x : Int) : Prop := -2 ^ 63 ≤ x ∧ x < 2 ^ 63

instance (x : Int) : Decidable (isInt x) := by
  unfold isInt; exact inferInstance

/-- Values of Go's `float64` as far as ordering is concerned: not-a-number,
the infinities, and `fin m e` for the finite value `m / 2^e` (both zeros are
`fin 0 e`). -/
inductive F64 where
  | nan : F64
  | negInf : F64
  | fin (m : Int) (e : Nat) : F64
  | posInf : F64

/-- Go's `x < y` on `float64`. -/
def F64.lt : F64 → F64 → Bool
  | .nan, _ => false
  | _, .nan => false
  | .negInf, .negInf => false
  | .negInf, _ => true
  | .fin _ _, .negInf => false
  | .fin a e, .fin b f => decide (a * 2 ^ f < b * 2 ^ e)
  | .fin _ _, .posInf => true
  | .posInf, _ => false

/-- Go's `x >= y` on `float64`. -/
def F64.ge : F64 → F64 → Bool
  | .nan, _ => false
  | _, .nan => false
  | _, .negInf => true
  | .negInf, _ => false
  | .posInf, _ => true
  | .fin _ _, .posInf => false
  | .fin a e, .fin b f => decide (b * 2 ^ e ≤ a * 2 ^ f)

/-- The `float64` constant `0.5` (exactly representable). -/
def F64.half : F64 := .fin 1 1

/-- The `float64` constant `0.0001`: the double nearest to the decimal, which
is `7378697629483821 / 2^66`. -/
def F64.lit_0_0001 : F64 := .fin 7378697629483821 66

/-! ## The random source -/

/-- What the injector uses of `math/rand`. -/
structure Source where
  /-- State of a `*rand.Rand`. -/
  Rand : Type
  /-- The generator `rand.New(rand.NewSource(seed))`. -/
  New : Int → Rand
  /-- One call of `Float64()`: the value drawn and the state after the draw. -/
  Float64 : Rand → F64 × Rand

/-- The generator state after `k` draws. -/
def Source.advance (S : Source) : Nat → S.Rand → S.Rand
  | 0, g => g
  | k + 1, g => Source.advance S k (S.Float64 g).2

/-! ## The injector -/

/-- The struct `faultInjector`. -/
structure faultInjector (S : Source) where
  rnd : S.Rand
  faultProb : F64
  maxFaults : Int
  numFaults : Int
  numCalls : Int

/-- The function `newFaultInjector`; the counters take Go's zero value. -/
def newFaultInjector (S : Source) (seed : Int) (maxFaults : Int) (faultProb : F64) :
    faultInjector S :=
  { rnd := S.New seed
    faultProb := faultProb
    maxFaults := maxFaults
    numFaults := 0
    numCalls := 0 }

/-- The package variable `MainFaultInjector`, as initialised. -/
def MainFaultInjector (S : Source) : faultInjector S :=
  newFaultInjector S 0 1 F64.lit_0_0001

namespace faultInjector

variable {S : Source}

/-- The method `Reset`: five assignments, in the order of the source. -/
def Reset (r : faultInjector S) (seed : Int) (maxFaults : Int) (faultProb : F64) :
    faultInjector S :=
  let r := { r with rnd := S.New seed }
  let r := { r with faultProb := faultProb }
  let r := { r with maxFaults := maxFaults }
  let r := { r with numFaults := 0 }
  { r with numCalls := 0 }

/-- The method `MaxFaults`. -/
def MaxFaults (r : faultInjector S) : Int := r.maxFaults

/-- The method `NumFaults`. -/
def NumFaults (r : faultInjector S) : Int := r.numFaults

/-- The method `NumCalls`. -/
def NumCalls (r : faultInjector S) : Int := r.numCalls

/-- Outcome of one call of `Delta`: the returned `int64`, the lines written to
standard output, and the injector after the call. -/
structure Outcome (S : Source) where
  ret : Int
  stdout : List String
  inj : faultInjector S

/-- The method `Delta`. -/
def Delta (r : faultInjector S) : Outcome S :=
  let r := { r with numCalls := wrapInt (r.numCalls + 1) }
  if r.maxFaults ≤ r.numFaults then
    { ret := 0, stdout := [], inj := r }
  else
    let u1 := S.Float64 r.rnd
    let r := { r with rnd := u1.2 }
    if F64.lt u1.1 r.faultProb then
      let d : Int := 1
      let u2 := S.Float64 r.rnd
      let r := { r with rnd := u2.2 }
      let d : Int := if F64.lt u2.1 F64.half then -1 else d
      let r := { r with numFaults := wrapInt (r.numFaults + 1) }
      { ret := d, stdout := ["faultInjector: " ++ toString d ++ "\n"], inj := r }
    else
      { ret := 0, stdout := [], inj := r }

/-- The values returned by `n` successive calls of `Delta`, oldest first, and
the injector after the last call. -/
def callDelta : Nat → faultInjector S → List Int × faultInjector S
  | 0, r => ([], r)
  | n + 1, r =>
    let o := Delta r
    let rest := callDelta n o.inj
    (o.ret :: rest.1, rest.2)

/-- Number of non-zero values in a list of returned values. -/
def nonZero (ds : List Int) : Nat := (ds.filter (fun d => d ≠ 0)).length

/-- Number of values equal to `+1` or `-1` in a list of returned values. -/
def signedUnits (ds : List Int) : Nat := (ds.filter (fun d => d = 1 ∨ d = -1)).length

/-- Among `n` successive calls of `Delta`, the number of calls entered with the
cap not reached (`numFaults < maxFaults`). -/
def callsUnderCap : Nat → faultInjector S → Nat
  | 0, _ => 0
  | n + 1, r =>
    (if r.maxFaults ≤ r.numFaults then 0 else 1) + callsUnderCap n (Delta r).inj

/-- A schedule cut at a cap of `k` faults, in the words of the behaviour it is
compared with: the values of `ds` up to and including the `k`-th non-zero one,
and `0` in every later position. -/
def capSchedule : Nat → List Int → List Int
  | _, [] => []
  | 0, _ :: ds => 0 :: capSchedule 0 ds
  | k + 1, d :: ds => d :: capSchedule (if d ≠ 0 then k else k + 1) ds

end faultInjector

/-- The `float64` constant `0`. -/
def F64.zero : F64 := .fin 0 0

/-- The `float64` constant `1`. -/
def F64.one : F64 := .fin 1 0

/-- The value lies in the half-open interval `[0.0, 1.0)`, the range that
`math/rand` documents for `Float64()`. -/
def F64.inUnit (u : F64) : Bool := F64.ge u F64.zero && F64.lt u F64.one

/-- Every draw of the generator, from state `g` on, lies in `[0.0, 1.0)`. -/
def Source.drawsInUnit (S : Source) (g : S.Rand) : Prop :=
  ∀ j : Nat, F64.inUnit (S.Float64 (S.advance j g)).1 = true

/-! ## The instruction tree

`blueprint.go` declares `UpdateInstructionTree` in the interface `Blueprint`;
the types `Instruction`, `InstructionTree` and `Level` and the implementations
of the method live in other files. They are modelled here from the design
document. -/

/-- Modelled from the spec: the type `Level`, "an ordinal dependency depth
(non-negative integer)". -/
abbrev Level := Nat

/-- Modelled from the spec: the type `Instruction`, a handle "referencing: the
owning BlueprintID, an offset/length into the calldata word stream, and the
output wire range it produces" (first output wire and number of wires). -/
structure Instruction where
  BlueprintID : Nat
  CalldataOffset : Nat
  CalldataLength : Nat
  WireOffset : Nat
  NbWires : Nat

/-- The wires of the output range of an instruction. -/
def Instruction.outputs (inst : Instruction) : List Nat :=
  List.range' inst.WireOffset inst.NbWires

/-- Modelled from the spec: the type `InstructionTree`, "the ordered sequence
of all Instructions for a circuit plus, for every wire, its current dependency
Level", with the base level that wires without a producer have. -/
structure InstructionTree where
  instructions : List Instruction
  level : Nat → Level
  base : Level

/-- The tree of a circuit without instructions: every wire at the base level. -/
def InstructionTree.empty (base : Level) : InstructionTree :=
  { instructions := [], level := fun _ => base, base := base }

/-- Modelled from the spec: what `UpdateInstructionTree` needs of a blueprint
variant, namely the input wires that the blueprint "reads ... from the
instruction's own calldata". -/
structure Blueprint where
  inputWires : Instruction → List Nat

/-- The largest level among the wires `ws` (0 for no wire). -/
def InstructionTree.maxLevel (tree : InstructionTree) (ws : List Nat) : Level :=
  ws.foldr (fun w acc => max (tree.level w) acc) 0

/-- Modelled from the spec: the method `UpdateInstructionTree` of a blueprint,
which "computes `1 + max(level of referenced wires)` (or the tree's base level
if no inputs), writes that as the level for every wire this instruction
outputs, and returns the computed level". The result is the returned level
and the tree after the writes. -/
def Blueprint.UpdateInstructionTree (b : Blueprint) (inst : Instruction)
    (tree : InstructionTree) : Level × InstructionTree :=
  let ws := b.inputWires inst
  let lvl : Level := if ws.isEmpty then tree.base else 1 + tree.maxLevel ws
  (lvl, { tree with level := fun w => if w ∈ inst.outputs then lvl else tree.level w })

/-- Modelled from the spec: appending an instruction, after which the tree is
"mutated only by blueprints, during `UpdateInstructionTree`, immediately after
an instruction is appended". -/
def InstructionTree.append (tree : InstructionTree) (b : Blueprint) (inst : Instruction) :
    InstructionTree :=
  (b.UpdateInstructionTree inst
    { tree with instructions := tree.instructions ++ [inst] }).2

/-- The tree after appending the instructions of `prog`, in order, to `tree`. -/
def InstructionTree.appendAll (tree : InstructionTree) :
    List (Blueprint × Instruction) → InstructionTree
  | [] => tree
  | bi :: rest => InstructionTree.appendAll (tree.append bi.1 bi.2) rest

/-- Every instruction of `prog` outputs new wires: wires that are not in
`seen`, are not among its own inputs, and are not read or produced by an
earlier instruction of `prog`. -/
def outputsNew (seen : List Nat) : List (Blueprint × Instruction) → Bool
  | [] => true
  | bi :: rest =>
    bi.2.outputs.all (fun w => decide (w ∉ seen) && decide (w ∉ bi.1.inputWires bi.2)) &&
      outputsNew (seen ++ bi.1.inputWires bi.2 ++ bi.2.outputs) rest

/-! ## A concrete source for evaluation -/

/-- A small linear congruential generator: the state is a number below `16`,
and the draw is `state / 16`, a value in `[0, 1)`. -/
def lcg : Source :=
  { Rand := Nat
    New := fun seed => (seed % 16).toNat
    Float64 := fun g => (F64.fin (g : Int) 4, (5 * g + 3) % 16) }

/-- An injector over `lcg` that has reached its cap of 2 and whose probability
is `+Inf`, so that every draw would otherwise be a fault. -/
def atCap : faultInjector lcg :=
  { rnd := (5 : Nat)
    faultProb := F64.posInf
    maxFaults := 2
    numFaults := 2
    numCalls := 7 }

/-- A blueprint for evaluation: the instruction at calldata offset 0 reads
wires 0 and 1, the one at offset 2 reads wires 2 and 0, any other reads none. -/
def demoBlueprint : Blueprint :=
  { inputWires := fun inst =>
      if inst.CalldataOffset = 0 then [0, 1]
      else if inst.CalldataOffset = 2 then [2, 0]
      else [] }

/-- Three instructions for evaluation: wires 0 and 1 are circuit inputs, the
first instruction produces wire 2 from them, the second wires 3 and 4 from
wires 2 and 0, the third wire 5 from nothing. -/
def demoProgram : List (Blueprint × Instruction) :=
  [(demoBlueprint, { BlueprintID := 0, CalldataOffset := 0, CalldataLength := 2,
                     WireOffset := 2, NbWires := 1 }),
   (demoBlueprint, { BlueprintID := 0, CalldataOffset := 2, CalldataLength := 2,
                     WireOffset := 3, NbWires := 2 }),
   (demoBlueprint, { BlueprintID := 0, CalldataOffset := 4, CalldataLength := 0,
                     WireOffset := 5, NbWires := 1 })]

/-- A blueprint whose instructions read the wire named by their calldata
offset. -/
def offsetBlueprint : Blueprint :=
  { inputWires := fun inst => [inst.CalldataOffset] }

/-- One instruction that reads wire 3 and has wire 3 as its output. -/
def selfReadingProgram : List (Blueprint × Instruction) :=
  [(offsetBlueprint, { BlueprintID := 1, CalldataOffset := 3, CalldataLength := 1,
                       WireOffset := 3, NbWires := 1 })]

/-- Two instructions: the first reads wire 5 and produces wire 2, the second
reads wire 0 and produces wire 5, the wire the first one has already read. -/
def lateProducerProgram : List (Blueprint × Instruction) :=
  [(offsetBlueprint, { BlueprintID := 1, CalldataOffset := 5, CalldataLength := 1,
                       WireOffset := 2, NbWires := 1 }),
   (offsetBlueprint, { BlueprintID := 1, CalldataOffset := 0, CalldataLength := 1,
                       WireOffset := 5, NbWires := 1 })]

/-! ## Lemmas on one call of `Delta` -/

namespace faultInjector

variable {S : Source}

theorem wrapInt_eq (x : Int) (lo : -2 ^ 63 ≤ x) (hi : x < 2 ^ 63) : wrapInt x = x := by
  unfold wrapInt; omega

theorem Delta_ret_cases (r : faultInjector S) :
    (Delta r).ret = -1 ∨ (Delta r).ret = 0 ∨ (Delta r).ret = 1 := by
  unfold Delta
  by_cases hcap : r.maxFaults ≤ r.numFaults
  · simp [hcap]
  · by_cases h1 : F64.lt (S.Float64 r.rnd).1 r.faultProb = true
    · by_cases h2 : F64.lt (S.Float64 (S.Float64 r.rnd).2).1 F64.half = true <;>
        simp [hcap, h1, h2]
    · simp [hcap, h1]

theorem Delta_maxFaults (r : faultInjector S) : (Delta r).inj.maxFaults = r.maxFaults := by
  unfold Delta
  by_cases hcap : r.maxFaults ≤ r.numFaults
  · simp [hcap]
  · by_cases h1 : F64.lt (S.Float64 r.rnd).1 r.faultProb = true <;> simp [hcap, h1]

theorem Delta_faultProb (r : faultInjector S) : (Delta r).inj.faultProb = r.faultProb := by
  unfold Delta
  by_cases hcap : r.maxFaults ≤ r.numFaults
  · simp [hcap]
  · by_cases h1 : F64.lt (S.Float64 r.rnd).1 r.faultProb = true <;> simp [hcap, h1]

theorem Delta_numCalls (r : faultInjector S) :
    (Delta r).inj.numCalls = wrapInt (r.numCalls + 1) := by
  unfold Delta
  by_cases hcap : r.maxFaults ≤ r.numFaults
  · simp [hcap]
  · by_cases h1 : F64.lt (S.Float64 r.rnd).1 r.faultProb = true <;> simp [hcap, h1]

/-- At the cap, `Delta` returns zero and touches nothing but the call counter. -/
theorem Delta_at_cap (r : faultInjector S) (hcap : r.maxFaults ≤ r.numFaults) :
    Delta r = { ret := 0, stdout := [],
                inj := { r with numCalls := wrapInt (r.numCalls + 1) } } := by
  unfold Delta
  simp [hcap]

/-- Under the cap, the fault counter moves by one exactly on a non-zero return. -/
theorem Delta_numFaults (r : faultInjector S)
    (lo : -2 ^ 63 ≤ r.numFaults) (hi : r.maxFaults < 2 ^ 63) :
    (Delta r).inj.numFaults = r.numFaults + (if (Delta r).ret ≠ 0 then 1 else 0) := by
  unfold Delta
  by_cases hcap : r.maxFaults ≤ r.numFaults
  · simp [hcap]
  · have hw : wrapInt (r.numFaults + 1) = r.numFaults + 1 :=
      wrapInt_eq _ (by omega) (by omega)
    by_cases h1 : F64.lt (S.Float64 r.rnd).1 r.faultProb = true
    · by_cases h2 : F64.lt (S.Float64 (S.Float64 r.rnd).2).1 F64.half = true <;>
        simp [hcap, h1, h2, hw]
    · simp [hcap, h1]

/-- The fault counter never passes the cap (nor its own earlier value). -/
theorem Delta_numFaults_le (r : faultInjector S)
    (lo : -2 ^ 63 ≤ r.numFaults) (hi : r.maxFaults < 2 ^ 63) :
    (Delta r).inj.numFaults ≤ max r.maxFaults r.numFaults := by
  unfold Delta
  by_cases hcap : r.maxFaults ≤ r.numFaults
  · simp [hcap]
  · have hw : wrapInt (r.numFaults + 1) = r.numFaults + 1 :=
      wrapInt_eq _ (by omega) (by omega)
    by_cases h1 : F64.lt (S.Float64 r.rnd).1 r.faultProb = true
    · simp [hcap, h1, hw]; omega
    · simp [hcap, h1]

theorem nonZero_cons (d : Int) (ds : List Int) :
    nonZero (d :: ds) = (if d ≠ 0 then 1 else 0) + nonZero ds := by
  unfold nonZero
  by_cases h : d = 0
  · simp [h]
  · simp [h]; omega

/-- After any number of calls the fault counter is its old value plus the
number of non-zero returns, and is still bounded by the cap. -/
theorem callDelta_numFaults (n : Nat) (r : faultInjector S)
    (lo : -2 ^ 63 ≤ r.numFaults) (hi : r.maxFaults < 2 ^ 63) :
    (callDelta n r).2.numFaults = r.numFaults + nonZero (callDelta n r).1 ∧
    (callDelta n r).2.numFaults ≤ max r.maxFaults r.numFaults ∧
    (callDelta n r).2.maxFaults = r.maxFaults := by
  induction n generalizing r with
  | zero => simp [callDelta, nonZero]
  | succ n ih =>
    have h1 := Delta_numFaults r lo hi
    have h2 := Delta_numFaults_le r lo hi
    have h3 := Delta_maxFaults r
    have hlo : -2 ^ 63 ≤ (Delta r).inj.numFaults := by
      rw [h1]; split_ifs <;> omega
    obtain ⟨a, b, c⟩ := ih (Delta r).inj hlo (by rw [h3]; exact hi)
    simp only [callDelta, nonZero_cons]
    refine ⟨?_, ?_, ?_⟩
    · rw [a, h1]; push_cast; split_ifs <;> omega
    · rw [h3] at b
      have : r.numFaults ≤ (Delta r).inj.numFaults := by rw [h1]; split_ifs <;> omega
      omega
    · rw [c, h3]

theorem Reset_eq_new (r : faultInjector S) (seed k : Int) (p : F64) :
    Reset r seed k p = newFaultInjector S seed k p := rfl

/-- At the cap, any number of calls return zero and leave the generator, the
fault counter, the cap and the probability as they were. -/
theorem callDelta_at_cap (n : Nat) (r : faultInjector S) (hcap : r.maxFaults ≤ r.numFaults) :
    (callDelta n r).1 = List.replicate n 0 ∧ (callDelta n r).2.rnd = r.rnd ∧
    (callDelta n r).2.numFaults = r.numFaults ∧ (callDelta n r).2.maxFaults = r.maxFaults ∧
    (callDelta n r).2.faultProb = r.faultProb := by
  induction n generalizing r with
  | zero => simp [callDelta]
  | succ n ih =>
    have hd := Delta_at_cap r hcap
    obtain ⟨a, b, c, d, e⟩ := ih (Delta r).inj (by rw [hd]; exact hcap)
    rw [hd] at a b c d e
    simp only [callDelta, hd]
    exact ⟨by rw [a]; rfl, b, c, d, e⟩

/-- The value returned under the cap, as a function of the next two draws. -/
theorem Delta_ret_under_cap (r : faultInjector S) (hcap : ¬ r.maxFaults ≤ r.numFaults) :
    (Delta r).ret =
      if F64.lt (S.Float64 r.rnd).1 r.faultProb = true then
        (if F64.lt (S.Float64 (S.Float64 r.rnd).2).1 F64.half = true then -1 else 1)
      else 0 := by
  unfold Delta
  by_cases h1 : F64.lt (S.Float64 r.rnd).1 r.faultProb = true
  · by_cases h2 : F64.lt (S.Float64 (S.Float64 r.rnd).2).1 F64.half = true <;>
      simp [hcap, h1, h2]
  · simp [hcap, h1]

theorem callDelta_ret_cases (n : Nat) (r : faultInjector S) :
    ∀ d ∈ (callDelta n r).1, d = -1 ∨ d = 0 ∨ d = 1 := by
  induction n generalizing r with
  | zero => simp [callDelta]
  | succ n ih =>
    intro d hd
    simp only [callDelta, List.mem_cons] at hd
    rcases hd with hd | hd
    · rw [hd]; exact Delta_ret_cases r
    · exact ih _ d hd

theorem signedUnits_cons (d : Int) (ds : List Int) :
    signedUnits (d :: ds) = (if d = 1 ∨ d = -1 then 1 else 0) + signedUnits ds := by
  unfold signedUnits
  by_cases h : d = 1 ∨ d = -1
  · rw [List.filter_cons_of_pos (by simpa using h), if_pos h, List.length_cons]; omega
  · rw [List.filter_cons_of_neg (by simpa using h), if_neg h]; omega

theorem signedUnits_eq_nonZero (ds : List Int) (h : ∀ d ∈ ds, d = -1 ∨ d = 0 ∨ d = 1) :
    signedUnits ds = nonZero ds := by
  induction ds with
  | nil => rfl
  | cons d ds ih =>
    have hd := h d (List.mem_cons_self d ds)
    have ih := ih (fun x hx => h x (List.mem_cons_of_mem d hx))
    rw [signedUnits_cons, nonZero_cons, ih]
    rcases hd with hd | hd | hd <;> simp [hd]

theorem callDelta_numCalls (n : Nat) (r : faultInjector S)
    (lo : -2 ^ 63 ≤ r.numCalls) (hi : r.numCalls + n < 2 ^ 63) :
    (callDelta n r).2.numCalls = r.numCalls + n := by
  induction n generalizing r with
  | zero => simp [callDelta]
  | succ n ih =>
    have h1 : (Delta r).inj.numCalls = r.numCalls + 1 := by
      rw [Delta_numCalls]; exact wrapInt_eq _ (by omega) (by omega)
    have h2 := ih (Delta r).inj (by omega) (by rw [h1]; push_cast at hi; omega)
    simp only [callDelta]
    rw [h2, h1]; push_cast; omega

theorem advance_add (S : Source) (a b : Nat) (g : S.Rand) :
    S.advance (a + b) g = S.advance b (S.advance a g) := by
  induction a generalizing g with
  | zero => simp [Source.advance]
  | succ a ih =>
    have : a + 1 + b = (a + b) + 1 := by omega
    rw [this]
    simp only [Source.advance]
    exact ih _

/-- Draws consumed by one call: one unless the cap is reached, and one more on
a non-zero return. -/
theorem Delta_rnd (r : faultInjector S) :
    (Delta r).inj.rnd =
      S.advance ((if r.maxFaults ≤ r.numFaults then 0 else 1)
        + (if (Delta r).ret ≠ 0 then 1 else 0)) r.rnd := by
  unfold Delta
  by_cases hcap : r.maxFaults ≤ r.numFaults
  · simp [hcap, Source.advance]
  · by_cases h1 : F64.lt (S.Float64 r.rnd).1 r.faultProb = true
    · by_cases h2 : F64.lt (S.Float64 (S.Float64 r.rnd).2).1 F64.half = true <;>
        simp [hcap, h1, h2, Source.advance]
    · simp [hcap, h1, Source.advance]

theorem callDelta_rnd (n : Nat) (r : faultInjector S) :
    (callDelta n r).2.rnd =
      S.advance (callsUnderCap n r + nonZero (callDelta n r).1) r.rnd := by
  induction n generalizing r with
  | zero => simp [callDelta, callsUnderCap, nonZero, Source.advance]
  | succ n ih =>
    simp only [callDelta, callsUnderCap, nonZero_cons]
    rw [ih (Delta r).inj, Delta_rnd r, ← advance_add]
    congr 1
    omega

theorem F64.lt_of_ge (a b : F64) (h : F64.ge a b = true) : F64.lt a b = false := by
  cases a <;> cases b <;> simp_all [F64.ge, F64.lt]

theorem F64.ge_iff_not_lt (a b : F64) (ha : a ≠ F64.nan) (hb : b ≠ F64.nan) :
    F64.ge a b = true ↔ F64.lt a b = false := by
  cases a <;> cases b <;> simp_all [F64.ge, F64.lt]

/-- The constant `lit_0_0001` is a normal double (53-bit mantissa) within half
a unit in the last place of the decimal `0.0001`. -/
theorem F64.lit_0_0001_nearest :
    F64.lit_0_0001 = F64.fin 7378697629483821 66 ∧
    (2 : Int) ^ 52 ≤ 7378697629483821 ∧ (7378697629483821 : Int) < 2 ^ 53 ∧
    2 * |10000 * (7378697629483821 : Int) - 2 ^ 66| ≤ 10000 := by
  refine ⟨rfl, by decide, by decide, by decide⟩

/-! ## The claims -/

/-- C1. Fault cap: for every seed, probability, cap `0 ≤ k` (a Go `int`) and
number of calls `n`, after `Reset(seed, k, probability)` at most `k` of the
values returned by `n` successive calls of `Delta()` are non-zero. -/
theorem fault_cap (S : Source) (r : faultInjector S) (seed k : Int) (p : F64) (n : Nat)
    (hk0 : 0 ≤ k) (hk : k < 2 ^ 63) :
    (nonZero (callDelta n (Reset r seed k p)).1 : Int) ≤ k := by
  have hnf : (Reset r seed k p).numFaults = 0 := rfl
  have hmf : (Reset r seed k p).maxFaults = k := rfl
  obtain ⟨a, b, _⟩ := callDelta_numFaults n (Reset r seed k p)
    (by rw [hnf]; omega) (by rw [hmf]; exact hk)
  rw [a, hnf, hmf] at b
  omega

/-- Witness of C1: with the source `lcg`, seed 3, cap 2 and probability one
half, twelve calls return exactly two non-zero values. -/
theorem fault_cap_witness :
    (0 : Int) ≤ 2 ∧ (2 : Int) < 2 ^ 63 ∧
    (nonZero (callDelta 12 (Reset (MainFaultInjector lcg) 3 2 F64.half)).1 : Int) ≤ 2 ∧
    nonZero (callDelta 12 (Reset (MainFaultInjector lcg) 3 2 F64.half)).1 = 2 :=
  ⟨by decide, by decide,
   fault_cap lcg (MainFaultInjector lcg) 3 2 F64.half 12 (by decide) (by decide), by decide⟩

/-- C2. For every injector state, the value returned by `Delta()` is one of
`-1`, `0`, `+1`; so a non-zero return is exactly `+1` or `-1`. -/
theorem Delta_signed_unit (S : Source) (r : faultInjector S) :
    ((Delta r).ret = -1 ∨ (Delta r).ret = 0 ∨ (Delta r).ret = 1) ∧
    ((Delta r).ret ≠ 0 → (Delta r).ret = 1 ∨ (Delta r).ret = -1) := by
  have h := Delta_ret_cases r
  refine ⟨h, fun hne => ?_⟩
  rcases h with h | h | h
  · exact Or.inr h
  · exact absurd h hne
  · exact Or.inl h

/-- C3. Determinism: two injectors with arbitrary earlier states, each `Reset`
with the same seed, cap and probability, return the same `n` values from
`Delta()` and end with the same `NumCalls()` and `NumFaults()` (indeed in the
same state); an injector fresh from `newFaultInjector` with these arguments
returns that sequence too. -/
theorem Reset_deterministic (S : Source) (r1 r2 : faultInjector S) (seed k : Int) (p : F64)
    (n : Nat) :
    (callDelta n (Reset r1 seed k p)).1 = (callDelta n (Reset r2 seed k p)).1 ∧
    NumCalls (callDelta n (Reset r1 seed k p)).2 = NumCalls (callDelta n (Reset r2 seed k p)).2 ∧
    NumFaults (callDelta n (Reset r1 seed k p)).2
      = NumFaults (callDelta n (Reset r2 seed k p)).2 ∧
    (callDelta n (Reset r1 seed k p)).2 = (callDelta n (Reset r2 seed k p)).2 ∧
    (callDelta n (newFaultInjector S seed k p)).1 = (callDelta n (Reset r1 seed k p)).1 := by
  simp only [Reset_eq_new, and_self]

/-- C4. Once the cap is reached it stays reached: in a state with
`maxFaults ≤ numFaults`, `Delta()` returns 0 and leaves `numFaults`,
`maxFaults`, the probability and the generator unchanged, and so do all of
the next `n` calls, for every `n`. -/
theorem cap_reached_stays (S : Source) (r : faultInjector S) (n : Nat)
    (hcap : r.maxFaults ≤ r.numFaults) :
    (Delta r).ret = 0 ∧ (Delta r).inj.numFaults = r.numFaults ∧
    (Delta r).inj.maxFaults = r.maxFaults ∧ (Delta r).inj.faultProb = r.faultProb ∧
    (Delta r).inj.rnd = r.rnd ∧
    (callDelta n r).1 = List.replicate n 0 ∧ (callDelta n r).2.rnd = r.rnd ∧
    (callDelta n r).2.numFaults = r.numFaults ∧ (callDelta n r).2.maxFaults = r.maxFaults ∧
    (callDelta n r).2.faultProb = r.faultProb := by
  have hd := Delta_at_cap r hcap
  refine ⟨by rw [hd], by rw [hd], by rw [hd], by rw [hd], by rw [hd], callDelta_at_cap n r hcap⟩

/-- Witness of C4: an injector at its cap of 2 whose probability is `+Inf`
(every draw would be a fault) returns 0 four times. -/
theorem cap_reached_stays_witness :
    atCap.maxFaults ≤ atCap.numFaults ∧ (callDelta 4 atCap).1 = [0, 0, 0, 0] :=
  ⟨by decide, (cap_reached_stays lcg atCap 4 (by decide)).2.2.2.2.2.1⟩

/-- C5. `Reset(seed, maxFaults, probability)` zeroes both counters and installs
the configuration: afterwards `NumCalls() = 0`, `NumFaults() = 0`,
`MaxFaults() = maxFaults`, the probability is the given one and the generator
is the one seeded with `seed`; the result is the same from every prior state. -/
theorem Reset_installs (S : Source) (r : faultInjector S) (seed k : Int) (p : F64) :
    NumCalls (Reset r seed k p) = 0 ∧ NumFaults (Reset r seed k p) = 0 ∧
    MaxFaults (Reset r seed k p) = k ∧ (Reset r seed k p).faultProb = p ∧
    (Reset r seed k p).rnd = S.New seed ∧
    ∀ r0 : faultInjector S, Reset r0 seed k p = Reset r seed k p := by
  refine ⟨rfl, rfl, rfl, rfl, rfl, fun r0 => rfl⟩

/-- C6. Every call of `Delta()` adds one to the call counter, whatever it
returns: from a state whose counter is below the largest Go `int` the counter
goes up by exactly one, and after `Reset` followed by `n` calls (`n` below
`2^63`, that is, overflow aside) `NumCalls() = n`. -/
theorem numCalls_counts_calls (S : Source) (r r0 : faultInjector S) (seed k : Int) (p : F64)
    (n : Nat) (lo : -2 ^ 63 ≤ r.numCalls) (hi : r.numCalls < 2 ^ 63 - 1)
    (hn : (n : Int) < 2 ^ 63) :
    NumCalls (Delta r).inj = NumCalls r + 1 ∧
    NumCalls (callDelta n (Reset r0 seed k p)).2 = n := by
  constructor
  · unfold NumCalls
    rw [Delta_numCalls]
    exact wrapInt_eq _ (by omega) (by omega)
  · have h0 : (Reset r0 seed k p).numCalls = 0 := rfl
    have h := callDelta_numCalls n (Reset r0 seed k p) (by rw [h0]; omega) (by rw [h0]; omega)
    unfold NumCalls
    rw [h, h0]; omega

/-- Witness of C6: a call at the cap moves the counter from 7 to 8, and twelve
calls after a `Reset` leave it at 12. -/
theorem numCalls_counts_calls_witness :
    -2 ^ 63 ≤ atCap.numCalls ∧ atCap.numCalls < 2 ^ 63 - 1 ∧ ((12 : Nat) : Int) < 2 ^ 63 ∧
    NumCalls (Delta atCap).inj = 8 ∧
    NumCalls (callDelta 12 (Reset (MainFaultInjector lcg) 3 2 F64.half)).2 = (12 : Nat) :=
  ⟨by decide, by decide, by decide,
   (numCalls_counts_calls lcg atCap (MainFaultInjector lcg) 3 2 F64.half 12
      (by decide) (by decide) (by decide)).1,
   (numCalls_counts_calls lcg atCap (MainFaultInjector lcg) 3 2 F64.half 12
      (by decide) (by decide) (by decide)).2⟩

/-- C7. The fault counter counts exactly the non-zero returns: one call of
`Delta()` (on Go `int` fields) raises `numFaults` by one if and only if it
returns a non-zero value and otherwise leaves it unchanged; after `Reset`
followed by `n` calls, `NumFaults()` is the number of those calls that
returned `+1` or `-1`. -/
theorem numFaults_counts_faults (S : Source) (r r0 : faultInjector S) (seed k : Int) (p : F64)
    (n : Nat) (lo : -2 ^ 63 ≤ r.numFaults) (hi : r.maxFaults < 2 ^ 63) (hk : k < 2 ^ 63) :
    (NumFaults (Delta r).inj = NumFaults r + 1 ↔ (Delta r).ret ≠ 0) ∧
    ((Delta r).ret = 0 → NumFaults (Delta r).inj = NumFaults r) ∧
    NumFaults (callDelta n (Reset r0 seed k p)).2
      = signedUnits (callDelta n (Reset r0 seed k p)).1 := by
  have h1 := Delta_numFaults r lo hi
  unfold NumFaults
  refine ⟨?_, ?_, ?_⟩
  · rw [h1]; split_ifs with h <;> simp [h]
  · intro h; rw [h1]; simp [h]
  · have hnf : (Reset r0 seed k p).numFaults = 0 := rfl
    have hmf : (Reset r0 seed k p).maxFaults = k := rfl
    obtain ⟨a, _, _⟩ := callDelta_numFaults n (Reset r0 seed k p)
      (by rw [hnf]; omega) (by rw [hmf]; exact hk)
    rw [a, hnf, signedUnits_eq_nonZero _ (callDelta_ret_cases n _)]
    omega

/-- Witness of C7: after `Reset(3, 2, 0.5)` on `lcg` the first call returns
`-1` and sets the counter to 1; twelve calls return two faults and leave
`NumFaults() = 2`. -/
theorem numFaults_counts_faults_witness :
    -2 ^ 63 ≤ (newFaultInjector lcg 3 2 F64.half).numFaults ∧
    (newFaultInjector lcg 3 2 F64.half).maxFaults < 2 ^ 63 ∧ (2 : Int) < 2 ^ 63 ∧
    (Delta (newFaultInjector lcg 3 2 F64.half)).ret = -1 ∧
    NumFaults (Delta (newFaultInjector lcg 3 2 F64.half)).inj = 1 ∧
    NumFaults (callDelta 12 (Reset atCap 3 2 F64.half)).2 = 2 ∧
    NumFaults (callDelta 12 (Reset atCap 3 2 F64.half)).2
      = signedUnits (callDelta 12 (Reset atCap 3 2 F64.half)).1 :=
  ⟨by decide, by decide, by decide, by decide, by decide, by decide,
   (numFaults_counts_faults lcg (newFaultInjector lcg 3 2 F64.half) atCap 3 2 F64.half 12
      (by decide) (by decide) (by decide)).2.2⟩

/-- C8. One call of `Delta()` under the cap (`numFaults < maxFaults`), with
`u1` and `u2` the next two draws: the return is non-zero if and only if
`u1 < faultProb`; then it is `-1` when `u2 < 0.5` and `+1` when `u2 >= 0.5`;
when `u1 >= faultProb` it is 0. For a draw `u2` that is a number the two signs
are characterised exactly, `-1` by `u2 < 0.5` and `+1` by `u2 >= 0.5`. -/
theorem Delta_under_cap (S : Source) (r : faultInjector S) (hcap : r.numFaults < r.maxFaults) :
    ((Delta r).ret ≠ 0 ↔ F64.lt (S.Float64 r.rnd).1 r.faultProb = true) ∧
    (F64.lt (S.Float64 r.rnd).1 r.faultProb = true →
      F64.lt (S.Float64 (S.Float64 r.rnd).2).1 F64.half = true → (Delta r).ret = -1) ∧
    (F64.lt (S.Float64 r.rnd).1 r.faultProb = true →
      F64.ge (S.Float64 (S.Float64 r.rnd).2).1 F64.half = true → (Delta r).ret = 1) ∧
    (F64.ge (S.Float64 r.rnd).1 r.faultProb = true → (Delta r).ret = 0) ∧
    ((Delta r).ret = -1 ↔ F64.lt (S.Float64 r.rnd).1 r.faultProb = true ∧
      F64.lt (S.Float64 (S.Float64 r.rnd).2).1 F64.half = true) ∧
    ((S.Float64 (S.Float64 r.rnd).2).1 ≠ F64.nan →
      ((Delta r).ret = 1 ↔ F64.lt (S.Float64 r.rnd).1 r.faultProb = true ∧
        F64.ge (S.Float64 (S.Float64 r.rnd).2).1 F64.half = true)) := by
  have hn : ¬ r.maxFaults ≤ r.numFaults := by omega
  have hge1 := F64.lt_of_ge (S.Float64 r.rnd).1 r.faultProb
  have hge2 := F64.lt_of_ge (S.Float64 (S.Float64 r.rnd).2).1 F64.half
  have hiff := F64.ge_iff_not_lt (S.Float64 (S.Float64 r.rnd).2).1 F64.half
  have hhalf : F64.half ≠ F64.nan := by simp [F64.half]
  rw [Delta_ret_under_cap r hn]
  by_cases h1 : F64.lt (S.Float64 r.rnd).1 r.faultProb = true
  · by_cases h2 : F64.lt (S.Float64 (S.Float64 r.rnd).2).1 F64.half = true
    · simp_all
    · simp only [Bool.not_eq_true] at h2
      simp_all
  · simp only [Bool.not_eq_true] at h1
    simp_all

/-- Witness of C8: after `Reset(3, 2, 0.5)` on `lcg` the draws are `3/16` and
`2/16`, so the call returns `-1`. -/
theorem Delta_under_cap_witness :
    (newFaultInjector lcg 3 2 F64.half).numFaults < (newFaultInjector lcg 3 2 F64.half).maxFaults ∧
    ((Delta (newFaultInjector lcg 3 2 F64.half)).ret ≠ 0 ↔
      F64.lt (F64.fin 3 4) F64.half = true) ∧
    (Delta (newFaultInjector lcg 3 2 F64.half)).ret = -1 :=
  ⟨by decide, (Delta_under_cap lcg (newFaultInjector lcg 3 2 F64.half) (by decide)).1, by decide⟩

/-- C9. Draws consumed by one call of `Delta()`: two when it returns a fault,
one when the cap is not reached and it returns zero, none when the cap is
reached; so after `Reset` and `n` calls the generator seeded by `seed` has
advanced by (calls made under the cap) + `NumFaults()` draws. -/
theorem Delta_draws (S : Source) (r r0 : faultInjector S) (seed k : Int) (p : F64) (n : Nat)
    (hk : k < 2 ^ 63) :
    ((Delta r).ret ≠ 0 → (Delta r).inj.rnd = S.advance 2 r.rnd) ∧
    (r.numFaults < r.maxFaults → (Delta r).ret = 0 → (Delta r).inj.rnd = S.advance 1 r.rnd) ∧
    (r.maxFaults ≤ r.numFaults → (Delta r).inj.rnd = S.advance 0 r.rnd) ∧
    (callDelta n (Reset r0 seed k p)).2.rnd =
      S.advance (callsUnderCap n (Reset r0 seed k p)
        + (NumFaults (callDelta n (Reset r0 seed k p)).2).toNat) (S.New seed) := by
  have h := Delta_rnd r
  refine ⟨?_, ?_, ?_, ?_⟩
  · intro hne
    by_cases hcap : r.maxFaults ≤ r.numFaults
    · have := Delta_at_cap r hcap
      rw [this] at hne
      exact absurd rfl hne
    · rw [h, if_neg hcap, if_pos hne]
  · intro hcap hz
    have hn : ¬ r.maxFaults ≤ r.numFaults := by omega
    rw [h, if_neg hn, if_neg (by simpa using hz)]
  · intro hcap
    rw [Delta_at_cap r hcap]
    rfl
  · have hnf : (Reset r0 seed k p).numFaults = 0 := rfl
    have hmf : (Reset r0 seed k p).maxFaults = k := rfl
    have hr : (Reset r0 seed k p).rnd = S.New seed := rfl
    obtain ⟨a, _, _⟩ := callDelta_numFaults n (Reset r0 seed k p)
      (by rw [hnf]; omega) (by rw [hmf]; exact hk)
    unfold NumFaults
    rw [callDelta_rnd, a, hnf, hr]
    congr 2
    simp

/-- Witness of C9: after `Reset(3, 2, 0.5)` on `lcg`, twelve calls make three
calls under the cap and two faults, and the generator is five draws on. -/
theorem Delta_draws_witness :
    (2 : Int) < 2 ^ 63 ∧
    callsUnderCap 12 (Reset atCap 3 2 F64.half) = 3 ∧
    NumFaults (callDelta 12 (Reset atCap 3 2 F64.half)).2 = 2 ∧
    (callDelta 12 (Reset atCap 3 2 F64.half)).2.rnd =
      lcg.advance (callsUnderCap 12 (Reset atCap 3 2 F64.half)
        + (NumFaults (callDelta 12 (Reset atCap 3 2 F64.half)).2).toNat) (lcg.New 3) :=
  ⟨by decide, by decide, by decide,
   (Delta_draws lcg atCap atCap 3 2 F64.half 12 (by decide)).2.2.2⟩

/-- C10. The package-level injector `MainFaultInjector` starts as
`newFaultInjector(0, 1, 0.0001)`: generator seeded with 0, `MaxFaults() = 1`,
probability `0.0001`, `NumCalls() = 0`, `NumFaults() = 0`; and without a
`Reset`, of any number `n` of `Delta()` calls on it at most one returns a
non-zero value. -/
theorem MainFaultInjector_initial (S : Source) (n : Nat) :
    MainFaultInjector S = newFaultInjector S 0 1 F64.lit_0_0001 ∧
    (MainFaultInjector S).rnd = S.New 0 ∧
    MaxFaults (MainFaultInjector S) = 1 ∧
    (MainFaultInjector S).faultProb = F64.lit_0_0001 ∧
    NumCalls (MainFaultInjector S) = 0 ∧
    NumFaults (MainFaultInjector S) = 0 ∧
    nonZero (callDelta n (MainFaultInjector S)).1 ≤ 1 := by
  refine ⟨rfl, rfl, rfl, rfl, rfl, rfl, ?_⟩
  have hnf : (MainFaultInjector S).numFaults = 0 := rfl
  have hmf : (MainFaultInjector S).maxFaults = 1 := rfl
  obtain ⟨a, b, _⟩ := callDelta_numFaults n (MainFaultInjector S)
    (by rw [hnf]; omega) (by rw [hmf]; omega)
  rw [a, hnf, hmf] at b
  omega

/-! ## Lemmas on schedules under two caps -/

theorem callDelta_length (n : Nat) (r : faultInjector S) : (callDelta n r).1.length = n := by
  induction n generalizing r with
  | zero => rfl
  | succ n ih => simp only [callDelta, List.length_cons, ih]

theorem capSchedule_zero (ds : List Int) : capSchedule 0 ds = List.replicate ds.length 0 := by
  induction ds with
  | nil => rfl
  | cons d ds ih => simp only [capSchedule, ih, List.length_cons, List.replicate_succ]

/-- Position by position: the cut schedule keeps a value exactly when fewer
than `k` non-zero values precede it. -/
theorem capSchedule_getD (k : Nat) (ds : List Int) (i : Nat) :
    (capSchedule k ds).getD i 0 = if nonZero (ds.take i) < k then ds.getD i 0 else 0 := by
  induction ds generalizing k i with
  | nil => simp [capSchedule]
  | cons d ds ih =>
    cases k with
    | zero =>
      simp only [capSchedule_zero, Nat.not_lt_zero, if_false, List.getD_eq_getElem?_getD,
        List.getElem?_replicate]
      split_ifs <;> rfl
    | succ k =>
      cases i with
      | zero => simp [capSchedule, nonZero]
      | succ i =>
        simp only [capSchedule, List.getD_cons_succ, List.take_succ_cons, nonZero_cons, ih]
        by_cases hd : d = 0
        · simp [hd]
        · simp only [ne_eq, hd, not_false_eq_true, if_true]
          have : (nonZero (List.take i ds) < k) ↔ (1 + nonZero (List.take i ds) < k + 1) := by
            omega
          simp only [this]

/-- Two injectors that differ only in their caps (and call counters): the one
with the lower cap follows the other until its own cap is reached. -/
theorem callDelta_raise_cap (n : Nat) (r r' : faultInjector S)
    (hr : r.rnd = r'.rnd) (hp : r.faultProb = r'.faultProb) (hf : r.numFaults = r'.numFaults)
    (hle : r.maxFaults ≤ r'.maxFaults) (hi : r'.maxFaults < 2 ^ 63)
    (lo : 0 ≤ r.numFaults) (hcap : r.numFaults ≤ r.maxFaults) :
    (callDelta n r).1 =
      capSchedule (r.maxFaults - r.numFaults).toNat (callDelta n r').1 := by
  induction n generalizing r r' with
  | zero => simp [callDelta, capSchedule]
  | succ n ih =>
    by_cases hat : r.maxFaults ≤ r.numFaults
    · have hz : (r.maxFaults - r.numFaults).toNat = 0 := by omega
      rw [hz, capSchedule_zero, callDelta_length, (callDelta_at_cap (n + 1) r hat).1]
    · have hat' : ¬ r'.maxFaults ≤ r'.numFaults := by omega
      have hret : (Delta r).ret = (Delta r').ret := by
        rw [Delta_ret_under_cap r hat, Delta_ret_under_cap r' hat', hr, hp]
      have hrnd : (Delta r).inj.rnd = (Delta r').inj.rnd := by
        rw [Delta_rnd r, Delta_rnd r', if_neg hat, if_neg hat', hret, hr]
      have hnf := Delta_numFaults r (by omega) (by omega)
      have hnf' := Delta_numFaults r' (by omega) hi
      have hm := Delta_maxFaults r
      have hm' := Delta_maxFaults r'
      have hbound := Delta_numFaults_le r (by omega) (by omega)
      have step := ih (Delta r).inj (Delta r').inj hrnd
        (by rw [Delta_faultProb, Delta_faultProb, hp])
        (by rw [hnf, hnf', hret, hf])
        (by rw [hm, hm']; exact hle) (by rw [hm']; exact hi)
        (by rw [hnf]; split_ifs <;> omega)
        (by rw [hm]; omega)
      obtain ⟨m, hm1⟩ : ∃ m, (r.maxFaults - r.numFaults).toNat = m + 1 :=
        ⟨(r.maxFaults - r.numFaults).toNat - 1, by omega⟩
      simp only [callDelta]
      rw [hm1, capSchedule, step, hret, hm, hnf, hret]
      congr 2
      split_ifs <;> omega

/-- C13. Raising the cap only extends the fault schedule: for caps
`0 ≤ k ≤ k'` (Go `int`s) and the same seed and probability, the values
returned after `Reset(seed, k, probability)` are those returned after
`Reset(seed, k', probability)` up to and including the `k`-th non-zero one and
`0` afterwards; position by position, call `i` agrees when fewer than `k`
non-zero values precede it and returns `0` otherwise. -/
theorem raise_cap_extends (S : Source) (r r' : faultInjector S) (seed k k' : Int) (p : F64)
    (n : Nat) (hk0 : 0 ≤ k) (hkk : k ≤ k') (hk' : k' < 2 ^ 63) :
    (callDelta n (Reset r seed k p)).1
      = capSchedule k.toNat (callDelta n (Reset r' seed k' p)).1 ∧
    ∀ i : Nat, (callDelta n (Reset r seed k p)).1.getD i 0 =
      if nonZero ((callDelta n (Reset r' seed k' p)).1.take i) < k.toNat
      then (callDelta n (Reset r' seed k' p)).1.getD i 0 else 0 := by
  have h := callDelta_raise_cap n (Reset r seed k p) (Reset r' seed k' p) rfl rfl rfl
    hkk hk' (le_refl 0) hk0
  have hz : ((Reset r seed k p).maxFaults - (Reset r seed k p).numFaults).toNat = k.toNat := by
    show (k - 0).toNat = k.toNat
    rw [sub_zero]
  rw [hz] at h
  refine ⟨h, fun i => ?_⟩
  rw [h, capSchedule_getD]

/-- Witness of C13: on `lcg` with seed 3 and probability one half, cap 2 gives
faults at the first and third call, and cap 1 keeps only the first. -/
theorem raise_cap_extends_witness :
    (0 : Int) ≤ 1 ∧ (1 : Int) ≤ 2 ∧ (2 : Int) < 2 ^ 63 ∧
    (callDelta 6 (Reset atCap 3 2 F64.half)).1 = [-1, 0, -1, 0, 0, 0] ∧
    (callDelta 6 (Reset atCap 3 1 F64.half)).1 = [-1, 0, 0, 0, 0, 0] ∧
    (callDelta 6 (Reset atCap 3 1 F64.half)).1
      = capSchedule (1 : Int).toNat (callDelta 6 (Reset atCap 3 2 F64.half)).1 :=
  ⟨by decide, by decide, by decide, by decide, by decide,
   (raise_cap_extends lcg atCap atCap 3 1 2 F64.half 6 (by decide) (by decide) (by decide)).1⟩

/-! ## Lemmas on extreme probabilities -/

theorem F64.lt_false_of_nonpos (u p : F64) (hu : F64.inUnit u = true)
    (hp : F64.ge F64.zero p = true) : F64.lt u p = false := by
  cases u <;> cases p <;>
    simp_all [F64.inUnit, F64.ge, F64.lt, F64.zero, F64.one]
  rename_i m e b f
  have h1 : (0 : Int) ≤ m * 2 ^ f := mul_nonneg hu.1 (by positivity)
  have h2 : b * 2 ^ e ≤ 0 := mul_nonpos_of_nonpos_of_nonneg hp (by positivity)
  omega

theorem F64.lt_true_of_ge_one (u p : F64) (hu : F64.inUnit u = true)
    (hp : F64.ge p F64.one = true) : F64.lt u p = true := by
  cases u <;> cases p <;>
    simp_all [F64.inUnit, F64.ge, F64.lt, F64.zero, F64.one]
  rename_i m e b f
  have hf : (0 : Int) < 2 ^ f := by positivity
  have he : (0 : Int) < 2 ^ e := by positivity
  calc m * 2 ^ f < 2 ^ e * 2 ^ f := mul_lt_mul_of_pos_right hu.2 hf
    _ = 2 ^ f * 2 ^ e := mul_comm _ _
    _ ≤ b * 2 ^ e := mul_le_mul_of_nonneg_right hp (le_of_lt he)

theorem drawsInUnit_advance (S : Source) (g : S.Rand) (m : Nat) (h : S.drawsInUnit g) :
    S.drawsInUnit (S.advance m g) := by
  intro j
  rw [← advance_add]
  exact h (m + j)

/-- A call that returns zero leaves the fault counter alone. -/
theorem Delta_numFaults_of_zero (r : faultInjector S) (hz : (Delta r).ret = 0) :
    (Delta r).inj.numFaults = r.numFaults := by
  by_cases hcap : r.maxFaults ≤ r.numFaults
  · rw [Delta_at_cap r hcap]
  · have h := Delta_ret_under_cap r hcap
    rw [hz] at h
    unfold Delta
    by_cases h1 : F64.lt (S.Float64 r.rnd).1 r.faultProb = true
    · rw [if_pos h1] at h
      split_ifs at h
      exact absurd h (by decide)
    · simp [hcap, h1]

theorem nonZero_replicate_zero (n : Nat) : nonZero (List.replicate n 0) = 0 := by
  induction n with
  | zero => rfl
  | succ n ih => rw [List.replicate_succ, nonZero_cons, ih]; simp

/-- With a probability that is at most zero no call ever returns a fault. -/
theorem callDelta_prob_nonpos (n : Nat) (r : faultInjector S) (hd : S.drawsInUnit r.rnd)
    (hp : F64.ge F64.zero r.faultProb = true) :
    (callDelta n r).1 = List.replicate n 0 ∧ (callDelta n r).2.numFaults = r.numFaults := by
  induction n generalizing r with
  | zero => simp [callDelta]
  | succ n ih =>
    have hret : (Delta r).ret = 0 := by
      by_cases hcap : r.maxFaults ≤ r.numFaults
      · rw [Delta_at_cap r hcap]
      · rw [Delta_ret_under_cap r hcap,
          F64.lt_false_of_nonpos (S.Float64 r.rnd).1 r.faultProb (hd 0) hp]
        rfl
    have hnf := Delta_numFaults_of_zero r hret
    obtain ⟨a, b⟩ := ih (Delta r).inj
      (by rw [Delta_rnd]; exact drawsInUnit_advance S _ _ hd)
      (by rw [Delta_faultProb]; exact hp)
    simp only [callDelta]
    exact ⟨by rw [a, hret]; rfl, by rw [b, hnf]⟩

/-- With a probability that is at least one every call under the cap returns a
fault: the first `maxFaults - numFaults` calls are faults, the rest zero. -/
theorem callDelta_prob_ge_one (n : Nat) (r : faultInjector S) (hd : S.drawsInUnit r.rnd)
    (hp : F64.ge r.faultProb F64.one = true) (lo : 0 ≤ r.numFaults)
    (hcap : r.numFaults ≤ r.maxFaults) (hi : r.maxFaults < 2 ^ 63) :
    (∀ d ∈ (callDelta n r).1.take (r.maxFaults - r.numFaults).toNat, d ≠ 0) ∧
    (callDelta n r).1.drop (r.maxFaults - r.numFaults).toNat
      = List.replicate (n - (r.maxFaults - r.numFaults).toNat) 0 ∧
    nonZero (callDelta n r).1 = min n (r.maxFaults - r.numFaults).toNat := by
  induction n generalizing r with
  | zero => simp [callDelta, nonZero]
  | succ n ih =>
    by_cases hat : r.maxFaults ≤ r.numFaults
    · have hz : (r.maxFaults - r.numFaults).toNat = 0 := by omega
      rw [hz, (callDelta_at_cap (n + 1) r hat).1]
      simp [nonZero_replicate_zero]
    · have hret : (Delta r).ret ≠ 0 := by
        rw [Delta_ret_under_cap r hat,
          F64.lt_true_of_ge_one (S.Float64 r.rnd).1 r.faultProb (hd 0) hp, if_pos rfl]
        split_ifs <;> decide
      have hnf := Delta_numFaults r (by omega) hi
      rw [if_pos hret] at hnf
      have hm := Delta_maxFaults r
      obtain ⟨m, hm1⟩ : ∃ m, (r.maxFaults - r.numFaults).toNat = m + 1 :=
        ⟨(r.maxFaults - r.numFaults).toNat - 1, by omega⟩
      have hm2 : ((Delta r).inj.maxFaults - (Delta r).inj.numFaults).toNat = m := by
        rw [hm, hnf]; omega
      obtain ⟨a, b, c⟩ := ih (Delta r).inj
        (by rw [Delta_rnd]; exact drawsInUnit_advance S _ _ hd)
        (by rw [Delta_faultProb]; exact hp)
        (by rw [hnf]; omega) (by rw [hnf, hm]; omega) (by rw [hm]; exact hi)
      rw [hm2] at a b c
      simp only [callDelta, hm1, List.take_succ_cons, List.drop_succ_cons, nonZero_cons,
        if_pos hret]
      refine ⟨?_, ?_, ?_⟩
      · intro d hd'
        rcases List.mem_cons.mp hd' with h | h
        · rw [h]; exact hret
        · exact a d h
      · rw [b]; congr 1; omega
      · rw [c]; omega

/-- The states of `lcg` reached from a seed stay below 16, so its draws lie
in `[0, 1)`. -/
theorem lcg_drawsInUnit (seed : Int) : lcg.drawsInUnit (lcg.New seed) := by
  have hstep : ∀ (j : Nat) (g : Nat), g < 16 →
      F64.inUnit (lcg.Float64 (lcg.advance j g)).1 = true := by
    intro j
    induction j with
    | zero =>
      intro g hg
      simp only [Source.advance, lcg, F64.inUnit, F64.ge, F64.lt, F64.zero, F64.one,
        Bool.and_eq_true, decide_eq_true_eq]
      omega
    | succ j ih =>
      intro g hg
      exact ih ((5 * g + 3) % 16) (Nat.mod_lt _ (by decide))
  intro j
  exact hstep j (seed % 16).toNat (by show (seed % 16).toNat < 16; omega)

/-- The call counter after `n` calls, overflow included. -/
theorem callDelta_numCalls_wrap (n : Nat) (r : faultInjector S)
    (lo : -2 ^ 63 ≤ r.numCalls) (hi : r.numCalls < 2 ^ 63) :
    (callDelta n r).2.numCalls = wrapInt (r.numCalls + n) := by
  induction n generalizing r with
  | zero => simp only [callDelta, Nat.cast_zero, add_zero]; exact (wrapInt_eq _ lo hi).symm
  | succ n ih =>
    have h1 := Delta_numCalls r
    have h2 := ih (Delta r).inj (by rw [h1]; unfold wrapInt; omega)
      (by rw [h1]; unfold wrapInt; omega)
    simp only [callDelta]
    rw [h2, h1]
    unfold wrapInt
    push_cast
    omega

/-- C14. Extreme probabilities, when every draw of the generator seeded with
`seed` lies in `[0, 1)`: after `Reset` with a probability `p0 <= 0`, whatever
the cap `k0`, every one of `n` calls of `Delta()` returns 0 and `NumFaults()`
stays 0; after `Reset` with a probability `p1 >= 1` and a cap `k >= 0` (a Go
`int`), the first `k` calls return non-zero values and all later calls 0, so
`n` calls yield exactly `min(n, k)` faults. -/
theorem extreme_probabilities (S : Source) (r : faultInjector S) (seed k0 k : Int)
    (p0 p1 : F64) (n : Nat) (hdraw : S.drawsInUnit (S.New seed))
    (hp0 : F64.ge F64.zero p0 = true) (hp1 : F64.ge p1 F64.one = true)
    (hk0 : 0 ≤ k) (hk : k < 2 ^ 63) :
    ((callDelta n (Reset r seed k0 p0)).1 = List.replicate n 0 ∧
      NumFaults (callDelta n (Reset r seed k0 p0)).2 = 0) ∧
    ((callDelta n (Reset r seed k p1)).1.length = n ∧
      (∀ d ∈ (callDelta n (Reset r seed k p1)).1.take k.toNat, d ≠ 0) ∧
      (callDelta n (Reset r seed k p1)).1.drop k.toNat = List.replicate (n - k.toNat) 0 ∧
      nonZero (callDelta n (Reset r seed k p1)).1 = min n k.toNat ∧
      NumFaults (callDelta n (Reset r seed k p1)).2 = min (n : Int) k) := by
  constructor
  · exact callDelta_prob_nonpos n (Reset r seed k0 p0) hdraw hp0
  · have hnf : (Reset r seed k p1).numFaults = 0 := rfl
    have hmf : (Reset r seed k p1).maxFaults = k := rfl
    have hz : ((Reset r seed k p1).maxFaults - (Reset r seed k p1).numFaults).toNat
        = k.toNat := by rw [hnf, hmf, sub_zero]
    obtain ⟨a, b, c⟩ := callDelta_prob_ge_one n (Reset r seed k p1) hdraw hp1
      (by rw [hnf]) (by rw [hnf, hmf]; exact hk0) (by rw [hmf]; exact hk)
    rw [hz] at a b c
    obtain ⟨e, _, _⟩ := callDelta_numFaults n (Reset r seed k p1)
      (by rw [hnf]; omega) (by rw [hmf]; exact hk)
    refine ⟨callDelta_length n _, a, b, c, ?_⟩
    unfold NumFaults
    rw [e, hnf, c]
    omega

/-- Witness of C14: on `lcg` with seed 3, probability `-Inf` gives five zeros
under cap 2, and probability `+Inf` gives faults on exactly the first two of
five calls. -/
theorem extreme_probabilities_witness :
    lcg.drawsInUnit (lcg.New 3) ∧
    F64.ge F64.zero F64.negInf = true ∧ F64.ge F64.posInf F64.one = true ∧
    (0 : Int) ≤ 2 ∧ (2 : Int) < 2 ^ 63 ∧
    (callDelta 5 (Reset atCap 3 2 F64.negInf)).1 = [0, 0, 0, 0, 0] ∧
    (callDelta 5 (Reset atCap 3 2 F64.posInf)).1 = [-1, -1, 0, 0, 0] ∧
    nonZero (callDelta 5 (Reset atCap 3 2 F64.posInf)).1 = min 5 (2 : Int).toNat :=
  ⟨lcg_drawsInUnit 3, by decide, by decide, by decide, by decide, by decide, by decide,
   (extreme_probabilities lcg atCap 3 2 2 F64.negInf F64.posInf 5 (lcg_drawsInUnit 3)
      (by decide) (by decide) (by decide) (by decide)).2.2.2.2.1⟩

/-- C15. A zero or negative cap disables injection: after
`Reset(seed, k, probability)` with `k <= 0`, all of `n` calls of `Delta()`
return 0, `NumFaults()` stays 0, the generator is still the freshly seeded one
(no draw consumed), cap and probability are as configured, and only
`NumCalls()` moves: it is `n` (wrapped to a Go `int`; `n` itself below
`2^63`). For `k < 0` the number of non-zero returns, 0, is not at most `k`. -/
theorem nonpositive_cap_disables (S : Source) (r : faultInjector S) (seed k : Int) (p : F64)
    (n : Nat) (hk : k ≤ 0) :
    (callDelta n (Reset r seed k p)).1 = List.replicate n 0 ∧
    NumFaults (callDelta n (Reset r seed k p)).2 = 0 ∧
    (callDelta n (Reset r seed k p)).2.rnd = S.New seed ∧
    MaxFaults (callDelta n (Reset r seed k p)).2 = k ∧
    (callDelta n (Reset r seed k p)).2.faultProb = p ∧
    NumCalls (callDelta n (Reset r seed k p)).2 = wrapInt n ∧
    ((n : Int) < 2 ^ 63 → NumCalls (callDelta n (Reset r seed k p)).2 = n) ∧
    nonZero (callDelta n (Reset r seed k p)).1 = 0 ∧
    (k < 0 → ¬ ((nonZero (callDelta n (Reset r seed k p)).1 : Int) ≤ k)) := by
  have hnf : (Reset r seed k p).numFaults = 0 := rfl
  have hmf : (Reset r seed k p).maxFaults = k := rfl
  have hnc : (Reset r seed k p).numCalls = 0 := rfl
  obtain ⟨a, b, c, d, e⟩ := callDelta_at_cap n (Reset r seed k p) (by rw [hnf, hmf]; exact hk)
  have hw := callDelta_numCalls_wrap n (Reset r seed k p) (by rw [hnc]; omega)
    (by rw [hnc]; omega)
  rw [hnc, zero_add] at hw
  have hcount : nonZero (callDelta n (Reset r seed k p)).1 = 0 := by
    rw [a, nonZero_replicate_zero]
  refine ⟨a, c, b, d, e, hw, ?_, hcount, ?_⟩
  · intro hn
    unfold NumCalls
    rw [hw]
    exact wrapInt_eq _ (by omega) hn
  · intro hneg
    rw [hcount]
    push_cast
    omega

/-- Witness of C15: on `lcg`, with cap `-1` and probability `+Inf`, four calls
return 0, draw nothing and leave `NumCalls() = 4`, `NumFaults() = 0`. -/
theorem nonpositive_cap_disables_witness :
    (-1 : Int) ≤ 0 ∧
    (callDelta 4 (Reset atCap 3 (-1) F64.posInf)).1 = [0, 0, 0, 0] ∧
    NumCalls (callDelta 4 (Reset atCap 3 (-1) F64.posInf)).2 = 4 ∧
    NumFaults (callDelta 4 (Reset atCap 3 (-1) F64.posInf)).2 = 0 ∧
    (callDelta 4 (Reset atCap 3 (-1) F64.posInf)).2.rnd = lcg.New 3 :=
  ⟨by decide, by decide, by decide, by decide,
   (nonpositive_cap_disables lcg atCap 3 (-1) F64.posInf 4 (by decide)).2.2.1⟩

/-! ## Lemmas on the counters along a run -/

theorem callDelta_add (n m : Nat) (r : faultInjector S) :
    callDelta (n + m) r =
      ((callDelta n r).1 ++ (callDelta m (callDelta n r).2).1,
        (callDelta m (callDelta n r).2).2) := by
  induction n generalizing r with
  | zero => simp [callDelta]
  | succ n ih =>
    have : n + 1 + m = (n + m) + 1 := by omega
    rw [this]
    simp only [callDelta, ih, List.cons_append]

theorem callDelta_faultProb (n : Nat) (r : faultInjector S) :
    (callDelta n r).2.faultProb = r.faultProb := by
  induction n generalizing r with
  | zero => rfl
  | succ n ih => simp only [callDelta, ih, Delta_faultProb]

theorem nonZero_le_length (ds : List Int) : nonZero ds ≤ ds.length := by
  unfold nonZero
  exact List.length_filter_le _ ds

/-- C16 (as amended). Counter invariant on the states reached from
`newFaultInjector(seed, k, p)` or `Reset(seed, k, p)` (`k` a Go `int`) by `n`
calls of `Delta()`: `0 <= numFaults <= max(maxFaults, 0)`, the cap and the
probability are the configured ones, `Delta()` changes neither in any state,
and `numFaults` never decreases over further calls; as long as the call
counter has not overflowed (fewer than `2^63` calls since the `Reset`),
`numFaults <= numCalls`, `numCalls` is the number of calls and it does not
decrease. -/
theorem counter_invariant (S : Source) (r x : faultInjector S) (seed k : Int) (p : F64)
    (n m : Nat) (hk : k < 2 ^ 63) :
    callDelta n (newFaultInjector S seed k p) = callDelta n (Reset r seed k p) ∧
    0 ≤ (callDelta n (Reset r seed k p)).2.numFaults ∧
    (callDelta n (Reset r seed k p)).2.numFaults ≤ max k 0 ∧
    (callDelta n (Reset r seed k p)).2.maxFaults = k ∧
    (callDelta n (Reset r seed k p)).2.faultProb = p ∧
    (Delta x).inj.maxFaults = x.maxFaults ∧ (Delta x).inj.faultProb = x.faultProb ∧
    (callDelta n (Reset r seed k p)).2.numFaults
      ≤ (callDelta (n + m) (Reset r seed k p)).2.numFaults ∧
    (((n + m : Nat) : Int) < 2 ^ 63 →
      (callDelta n (Reset r seed k p)).2.numFaults
        ≤ (callDelta n (Reset r seed k p)).2.numCalls ∧
      (callDelta n (Reset r seed k p)).2.numCalls = n ∧
      (callDelta n (Reset r seed k p)).2.numCalls
        ≤ (callDelta (n + m) (Reset r seed k p)).2.numCalls) := by
  have hnf : (Reset r seed k p).numFaults = 0 := rfl
  have hmf : (Reset r seed k p).maxFaults = k := rfl
  have hnc : (Reset r seed k p).numCalls = 0 := rfl
  obtain ⟨a, b, c⟩ := callDelta_numFaults n (Reset r seed k p)
    (by rw [hnf]; omega) (by rw [hmf]; exact hk)
  rw [hnf, hmf] at b
  rw [hmf] at c
  obtain ⟨a2, _, _⟩ := callDelta_numFaults m (callDelta n (Reset r seed k p)).2
    (by rw [a, hnf]; omega) (by rw [c]; exact hk)
  have hlen := nonZero_le_length (callDelta n (Reset r seed k p)).1
  rw [callDelta_length] at hlen
  refine ⟨by rw [Reset_eq_new], by rw [a, hnf]; omega, b, c, ?_, Delta_maxFaults x,
    Delta_faultProb x, ?_, ?_⟩
  · rw [callDelta_faultProb]; rfl
  · rw [callDelta_add]
    show _ ≤ (callDelta m (callDelta n (Reset r seed k p)).2).2.numFaults
    rw [a2]; omega
  · intro hnm
    push_cast at hnm
    have e1 := callDelta_numCalls n (Reset r seed k p) (by rw [hnc]; omega)
      (by rw [hnc]; omega)
    have e2 := callDelta_numCalls (n + m) (Reset r seed k p) (by rw [hnc]; omega)
      (by rw [hnc]; push_cast; omega)
    rw [hnc] at e1 e2
    rw [e1, e2, a, hnf]
    push_cast
    omega

/-- Witness of C16: on `lcg` with seed 3, cap 2 and probability one half, after
three calls `numFaults = 2` and `numCalls = 3`, and after twelve `numFaults`
is still 2. -/
theorem counter_invariant_witness :
    (2 : Int) < 2 ^ 63 ∧
    (callDelta 3 (Reset atCap 3 2 F64.half)).2.numFaults = 2 ∧
    (callDelta 3 (Reset atCap 3 2 F64.half)).2.numCalls = 3 ∧
    (callDelta 3 (Reset atCap 3 2 F64.half)).2.numFaults
      ≤ (callDelta (3 + 9) (Reset atCap 3 2 F64.half)).2.numFaults :=
  ⟨by decide, by decide, by decide,
   (counter_invariant lcg atCap atCap 3 2 F64.half 3 9 (by decide)).2.2.2.2.2.2.2.1⟩

/-- C16 as stated fails once the call counter overflows: after `2^63` calls
of `Delta()` on `newFaultInjector(0, 0, 0.5)` the call counter has wrapped to
`-2^63`, below `numFaults = 0`, and it is below its value one call earlier. -/
theorem counter_invariant_counterexample :
    ¬ ((callDelta (2 ^ 63) (newFaultInjector lcg 0 0 F64.half)).2.numFaults
        ≤ (callDelta (2 ^ 63) (newFaultInjector lcg 0 0 F64.half)).2.numCalls) ∧
    (callDelta (2 ^ 63) (newFaultInjector lcg 0 0 F64.half)).2.numCalls
      < (callDelta (2 ^ 63 - 1) (newFaultInjector lcg 0 0 F64.half)).2.numCalls := by
  have hnf : (newFaultInjector lcg 0 0 F64.half).numFaults = 0 := rfl
  have hnc : (newFaultInjector lcg 0 0 F64.half).numCalls = 0 := rfl
  have hcap : (newFaultInjector lcg 0 0 F64.half).maxFaults
      ≤ (newFaultInjector lcg 0 0 F64.half).numFaults := le_refl 0
  have f1 := (callDelta_at_cap (2 ^ 63) (newFaultInjector lcg 0 0 F64.half) hcap).2.2.1
  have c1 := callDelta_numCalls_wrap (2 ^ 63) (newFaultInjector lcg 0 0 F64.half)
    (by rw [hnc]; omega) (by rw [hnc]; omega)
  have c2 := callDelta_numCalls_wrap (2 ^ 63 - 1) (newFaultInjector lcg 0 0 F64.half)
    (by rw [hnc]; omega) (by rw [hnc]; omega)
  rw [f1, c1, c2, hnf, hnc]
  unfold wrapInt
  constructor <;> norm_num

end faultInjector

/-! ## Lemmas on the instruction tree -/

theorem maxLevel_ge (tree : InstructionTree) (ws : List Nat) :
    ∀ w ∈ ws, tree.level w ≤ tree.maxLevel ws := by
  induction ws with
  | nil => intro w hw; cases hw
  | cons a ws ih =>
    intro w hw
    simp only [InstructionTree.maxLevel, List.foldr_cons]
    rcases List.mem_cons.mp hw with h | h
    · rw [h]; exact le_max_left _ _
    · exact le_trans (ih w h) (le_max_right _ _)

theorem maxLevel_attained (tree : InstructionTree) (ws : List Nat) (hne : ws ≠ []) :
    ∃ w ∈ ws, tree.level w = tree.maxLevel ws := by
  induction ws with
  | nil => exact absurd rfl hne
  | cons a ws ih =>
    by_cases hws : ws = []
    · refine ⟨a, List.mem_cons_self a ws, ?_⟩
      simp [hws, InstructionTree.maxLevel]
    · obtain ⟨w, hw, he⟩ := ih hws
      have hfold : tree.maxLevel (a :: ws) = max (tree.level a) (tree.maxLevel ws) := rfl
      rcases le_total (tree.level a) (tree.maxLevel ws) with h | h
      · exact ⟨w, List.mem_cons_of_mem a hw, by rw [hfold, max_eq_right h, he]⟩
      · exact ⟨a, List.mem_cons_self a ws, by rw [hfold, max_eq_left h]⟩

theorem append_level (tree : InstructionTree) (b : Blueprint) (inst : Instruction) (w : Nat) :
    (tree.append b inst).level w =
      if w ∈ inst.outputs then (b.UpdateInstructionTree inst tree).1 else tree.level w := rfl

theorem append_base (tree : InstructionTree) (b : Blueprint) (inst : Instruction) :
    (tree.append b inst).base = tree.base := rfl

theorem appendAll_base (prog : List (Blueprint × Instruction)) (tree : InstructionTree) :
    (tree.appendAll prog).base = tree.base := by
  induction prog generalizing tree with
  | nil => rfl
  | cons bi rest ih => simp only [InstructionTree.appendAll, ih, append_base]

theorem appendAll_instructions (prog : List (Blueprint × Instruction))
    (tree : InstructionTree) :
    (tree.appendAll prog).instructions = tree.instructions ++ prog.map Prod.snd := by
  induction prog generalizing tree with
  | nil => simp [InstructionTree.appendAll]
  | cons bi rest ih =>
    simp only [InstructionTree.appendAll, ih, List.map_cons]
    show (tree.instructions ++ [bi.2]) ++ _ = _
    simp

/-- A wire that no instruction of `prog` produces keeps its level. -/
theorem appendAll_level_of_not_output (prog : List (Blueprint × Instruction))
    (tree : InstructionTree) (w : Nat) (hw : ∀ bi ∈ prog, w ∉ bi.2.outputs) :
    (tree.appendAll prog).level w = tree.level w := by
  induction prog generalizing tree with
  | nil => rfl
  | cons bi rest ih =>
    simp only [InstructionTree.appendAll]
    rw [ih _ (fun x hx => hw x (List.mem_cons_of_mem bi hx)), append_level,
      if_neg (hw bi (List.mem_cons_self bi rest))]

theorem outputsNew_cons (seen : List Nat) (bi : Blueprint × Instruction)
    (rest : List (Blueprint × Instruction)) (h : outputsNew seen (bi :: rest) = true) :
    (∀ w ∈ bi.2.outputs, w ∉ seen ∧ w ∉ bi.1.inputWires bi.2) ∧
    outputsNew (seen ++ bi.1.inputWires bi.2 ++ bi.2.outputs) rest = true := by
  simp only [outputsNew, Bool.and_eq_true, List.all_eq_true, decide_eq_true_eq] at h
  exact h

/-- Wires already seen are not written by instructions that output new wires. -/
theorem appendAll_level_of_seen (prog : List (Blueprint × Instruction)) (seen : List Nat)
    (tree : InstructionTree) (h : outputsNew seen prog = true) (w : Nat) (hw : w ∈ seen) :
    (tree.appendAll prog).level w = tree.level w := by
  apply appendAll_level_of_not_output
  induction prog generalizing seen with
  | nil => intro bi hbi; cases hbi
  | cons bi rest ih =>
    obtain ⟨h1, h2⟩ := outputsNew_cons seen bi rest h
    intro x hx
    rcases List.mem_cons.mp hx with hx | hx
    · rw [hx]
      intro hmem
      exact (h1 w hmem).1 hw
    · exact ih _ h2 (by simp [hw]) x hx

/-- One update: inputs that are not outputs end up strictly below the outputs. -/
theorem append_input_lt_output (tree : InstructionTree) (b : Blueprint) (inst : Instruction)
    (w o : Nat) (hw : w ∈ b.inputWires inst) (hwo : w ∉ inst.outputs)
    (ho : o ∈ inst.outputs) :
    (tree.append b inst).level w < (tree.append b inst).level o := by
  rw [append_level, append_level, if_neg hwo, if_pos ho]
  have hne : (b.inputWires inst).isEmpty = false := by
    cases hl : b.inputWires inst with
    | nil => rw [hl] at hw; cases hw
    | cons a l => rfl
  have hge := maxLevel_ge tree (b.inputWires inst) w hw
  show tree.level w <
    (if (b.inputWires inst).isEmpty then tree.base else 1 + tree.maxLevel (b.inputWires inst))
  rw [hne]
  simp only [Bool.false_eq_true, if_false]
  exact Nat.lt_of_le_of_lt hge (Nat.lt_add_of_pos_left Nat.one_pos)

/-- The level invariant for every instruction of a program of new-wire
instructions. -/
theorem appendAll_input_lt_output (prog : List (Blueprint × Instruction)) (seen : List Nat)
    (tree : InstructionTree) (h : outputsNew seen prog = true) :
    ∀ bi ∈ prog, ∀ w ∈ bi.1.inputWires bi.2, ∀ o ∈ bi.2.outputs,
      (tree.appendAll prog).level w < (tree.appendAll prog).level o := by
  induction prog generalizing seen tree with
  | nil => intro bi hbi; cases hbi
  | cons bi rest ih =>
    obtain ⟨h1, h2⟩ := outputsNew_cons seen bi rest h
    intro x hx w hw o ho
    simp only [InstructionTree.appendAll]
    rcases List.mem_cons.mp hx with hx | hx
    · rw [hx] at hw ho
      have hwo : w ∉ bi.2.outputs := fun hmem => (h1 w hmem).2 hw
      rw [appendAll_level_of_seen rest _ _ h2 w (by simp [hw]),
        appendAll_level_of_seen rest _ _ h2 o (by simp [ho])]
      exact append_input_lt_output tree bi.1 bi.2 w o hw hwo ho
    · exact ih _ _ h2 x hx w hw o ho

/-- C12 (as amended). Level invariant, on the model of `UpdateInstructionTree`
taken from the design document. When an instruction is appended to any tree,
every input wire that is not one of its own output wires gets a level strictly
below that of every output wire; in the tree built from the empty one by a
program `prog` in which every instruction outputs new wires (wires that are
neither among its own inputs nor read or produced by an earlier instruction),
this holds for every instruction and every input wire. Without any condition
(`prog2`, `b`, `inst` and `tree` are arbitrary): the level returned is `1 +`
the maximum level of the referenced wires (the base level when there are
none), it is the level written to every output wire, and every wire that no
instruction produces has the base level of the tree. -/
theorem level_invariant (base : Level) (prog prog2 : List (Blueprint × Instruction))
    (b : Blueprint) (inst : Instruction) (tree : InstructionTree)
    (hnew : outputsNew [] prog = true) :
    (∀ bi ∈ prog, ∀ w ∈ bi.1.inputWires bi.2, ∀ o ∈ bi.2.outputs,
      ((InstructionTree.empty base).appendAll prog).level w
        < ((InstructionTree.empty base).appendAll prog).level o) ∧
    (∀ w, (∀ bi ∈ prog2, w ∉ bi.2.outputs) →
      ((InstructionTree.empty base).appendAll prog2).level w
        = ((InstructionTree.empty base).appendAll prog2).base) ∧
    ((InstructionTree.empty base).appendAll prog2).base = base ∧
    ((InstructionTree.empty base).appendAll prog2).instructions = prog2.map Prod.snd ∧
    (∀ w ∈ b.inputWires inst, w ∉ inst.outputs → ∀ o ∈ inst.outputs,
      (tree.append b inst).level w < (tree.append b inst).level o) ∧
    (b.inputWires inst ≠ [] →
      (b.UpdateInstructionTree inst tree).1 = 1 + tree.maxLevel (b.inputWires inst) ∧
      (∀ w ∈ b.inputWires inst, tree.level w ≤ tree.maxLevel (b.inputWires inst)) ∧
      ∃ w ∈ b.inputWires inst, tree.level w = tree.maxLevel (b.inputWires inst)) ∧
    (b.inputWires inst = [] → (b.UpdateInstructionTree inst tree).1 = tree.base) ∧
    (∀ o ∈ inst.outputs,
      (b.UpdateInstructionTree inst tree).2.level o = (b.UpdateInstructionTree inst tree).1) := by
  refine ⟨appendAll_input_lt_output prog [] _ hnew, ?_, ?_, ?_, ?_, ?_, ?_, ?_⟩
  · intro w hw
    rw [appendAll_level_of_not_output prog2 _ w hw, appendAll_base]
    rfl
  · rw [appendAll_base]; rfl
  · rw [appendAll_instructions]; rfl
  · intro w hw hwo o ho
    exact append_input_lt_output tree b inst w o hw hwo ho
  · intro hne
    refine ⟨?_, maxLevel_ge tree _, maxLevel_attained tree _ hne⟩
    have he : (b.inputWires inst).isEmpty = false := by
      cases hl : b.inputWires inst with
      | nil => exact absurd hl hne
      | cons a l => rfl
    show (if (b.inputWires inst).isEmpty then tree.base
      else 1 + tree.maxLevel (b.inputWires inst)) = _
    rw [he]
    rfl
  · intro he
    show (if (b.inputWires inst).isEmpty then tree.base
      else 1 + tree.maxLevel (b.inputWires inst)) = _
    rw [he]
    rfl
  · intro o ho
    show (if o ∈ inst.outputs then (b.UpdateInstructionTree inst tree).1 else tree.level o) = _
    rw [if_pos ho]

/-- Witness of C12: in the tree of `demoProgram` over base level 0, wires 0 to
6 have levels 0, 0, 1, 2, 2, 0, 0, and every input of every instruction lies
below its outputs. -/
theorem level_invariant_witness :
    outputsNew [] demoProgram = true ∧
    (List.range 7).map ((InstructionTree.empty 0).appendAll demoProgram).level
      = [0, 0, 1, 2, 2, 0, 0] ∧
    (∀ bi ∈ demoProgram, ∀ w ∈ bi.1.inputWires bi.2, ∀ o ∈ bi.2.outputs,
      ((InstructionTree.empty 0).appendAll demoProgram).level w
        < ((InstructionTree.empty 0).appendAll demoProgram).level o) :=
  ⟨by decide, by decide,
   (level_invariant 0 demoProgram lateProducerProgram demoBlueprint
      { BlueprintID := 0, CalldataOffset := 0, CalldataLength := 2, WireOffset := 2,
        NbWires := 1 }
      (InstructionTree.empty 0) (by decide)).1⟩

/-- C12 as stated fails on the model for instructions whose outputs are not
new wires. An instruction that reads wire 3 and outputs wire 3 leaves its
input at the level of its output (1 and 1). When wire 5 is read by one
instruction, which produces wire 2 at level 1, and produced by a later one,
wire 5 ends at level 1, not below wire 2. Neither program passes
`outputsNew`. -/
theorem level_invariant_counterexample :
    outputsNew [] selfReadingProgram = false ∧
    ((InstructionTree.empty 0).appendAll selfReadingProgram).level 3 = 1 ∧
    ¬ (∀ bi ∈ selfReadingProgram, ∀ w ∈ bi.1.inputWires bi.2, ∀ o ∈ bi.2.outputs,
        ((InstructionTree.empty 0).appendAll selfReadingProgram).level w
          < ((InstructionTree.empty 0).appendAll selfReadingProgram).level o) ∧
    outputsNew [] lateProducerProgram = false ∧
    ((InstructionTree.empty 0).appendAll lateProducerProgram).level 5 = 1 ∧
    ((InstructionTree.empty 0).appendAll lateProducerProgram).level 2 = 1 ∧
    ¬ (∀ bi ∈ lateProducerProgram, ∀ w ∈ bi.1.inputWires bi.2, ∀ o ∈ bi.2.outputs,
        ((InstructionTree.empty 0).appendAll lateProducerProgram).level w
          < ((InstructionTree.empty 0).appendAll lateProducerProgram).level o) := by
  refine ⟨by decide, by decide, by decide, by decide, by decide, by decide, by decide⟩

end constraint
